import Mathlib

/-!
Verification of the `hexdump` crate (files `src/lib.rs`, `src/imp.rs`).

The crate renders a byte slice as hexdump lines: one line per 16-byte chunk
(hex field grouped in 4-byte segments, a sanitized ASCII field, and an 8-digit
hex offset), followed by a single summary line carrying the total length.
The iterator over lines is double-ended and exactly sized.

Bytes are modelled as `Nat` values; theorems that depend on the `u8` type
carry the hypothesis that every byte is `< 256`.  Lines are modelled as
`List Char`.  Rust's `{:02x}` / `{:08x}` formatting is modelled by `hexMin`.
-/

/-- `SEGMENT_LENGTH` from src/imp.rs. -/
def SEGMENT_LENGTH : Nat := 4

/-- `CHUNK_LENGTH` from src/imp.rs. -/
def CHUNK_LENGTH : Nat := 16

/-- `NUM_SEGMENTS_PER_CHUNK` from src/imp.rs. -/
def NUM_SEGMENTS_PER_CHUNK : Nat := (CHUNK_LENGTH + SEGMENT_LENGTH - 1) / SEGMENT_LENGTH

/-- `BUFFER_LENGTH` from src/imp.rs: capacity of the per-line `ArrayString`. -/
def BUFFER_LENGTH : Nat := 64

/-- One lowercase hexadecimal digit character, as produced by Rust `{:x}`. -/
def hexDigit (d : Nat) : Char :=
  if d < 10 then Char.ofNat (48 + d) else Char.ofNat (87 + d)

/-- Little-endian base-16 digit list of `n` (empty for `n = 0`); the first
argument is fuel, which is sufficient whenever it is at least `n`. -/
def hexDigitsLEAux : Nat → Nat → List Nat
  | 0, _ => []
  | fuel + 1, n => if n = 0 then [] else n % 16 :: hexDigitsLEAux fuel (n / 16)

/-- Little-endian base-16 digit list of `n` (empty for `n = 0`). -/
def hexDigitsLE (n : Nat) : List Nat := hexDigitsLEAux n n

/-- Rust `{:0wx}` formatting: lowercase hex, zero-padded on the left to a
minimum width of `w` characters (wider when `n` needs more digits). -/
def hexMin (w n : Nat) : List Char :=
  (List.replicate (w - (hexDigitsLE n).length) 0 ++ (hexDigitsLE n).reverse).map hexDigit

/-- Rust `{:02x}` of a byte. -/
def hex2 (b : Nat) : List Char := hexMin 2 b

/-- Rust `{:08x}` of a length or offset. -/
def hex8 (n : Nat) : List Char := hexMin 8 n

/-- `sanitize_byte` from src/imp.rs: printable ASCII bytes map to themselves,
everything else maps to `'.'`. -/
def sanitize_byte (b : Nat) : Char :=
  if 0x20 ≤ b ∧ b < 0x7f then Char.ofNat b else '.'

/-- Partition into runs of `k`, fuelled version (fuel at least `l.length`
suffices; the recursion drops at least one element per step). -/
def chunksAux (k : Nat) : Nat → List Nat → List (List Nat)
  | 0, _ => []
  | fuel + 1, l =>
    match l with
    | [] => []
    | a :: l' => (a :: l').take k :: chunksAux k fuel ((a :: l').drop k)

/-- Rust `slice::chunks(k)`: non-overlapping runs of `k` elements from the
front, last run possibly shorter, no empty runs. -/
def chunksN (k : Nat) (l : List Nat) : List (List Nat) := chunksAux k l.length l

/-- Hex rendering of one segment: each byte as two lowercase hex digits. -/
def segHex (seg : List Nat) : List Char := (seg.map hex2).flatten

/-- The hex field of a chunk line: segments separated by single spaces, no
trailing separator (the `first` flag logic of the loop in `hexdump_chunk`). -/
def hexBody : List (List Nat) → List Char
  | [] => []
  | [s] => segHex s
  | s :: s2 :: rest => segHex s ++ ' ' :: hexBody (s2 :: rest)

/-- The value of the `num_bytes` variable after the segment loop of
`hexdump_chunk`: the length of the last segment, or `0` if there is none. -/
def lastSegLen (segs : List (List Nat)) : Nat := ((segs.getLast?).map List.length).getD 0

/-- `hexdump_chunk` from src/imp.rs, applied to an `enumerate`d chunk
`(i, chunk)`: delimiter, hex field, delimiter and space, padding for missing
bytes of the last segment, padding for wholly missing segments, sanitized
ASCII field, ASCII padding, a space, and the 8-digit hex offset `i * 16`. -/
def hexdump_chunk (i : Nat) (chunk : List Nat) : List Char :=
  ['|'] ++ hexBody (chunksN SEGMENT_LENGTH chunk)
    ++ ['|', ' ']
    ++ List.replicate ((SEGMENT_LENGTH - lastSegLen (chunksN SEGMENT_LENGTH chunk)) * 2) ' '
    ++ List.replicate
        ((NUM_SEGMENTS_PER_CHUNK - (chunksN SEGMENT_LENGTH chunk).length)
          * (2 * SEGMENT_LENGTH + 1)) ' '
    ++ chunk.map sanitize_byte
    ++ List.replicate (CHUNK_LENGTH - chunk.length) ' '
    ++ [' ']
    ++ hex8 (i * CHUNK_LENGTH)

/-- `hexdump_summary` from src/imp.rs: four spaces, three spaces per chunk
byte, one space per inter-segment separator, then the total length as eight
lowercase hex digits. -/
def hexdump_summary (len : Nat) : List Char :=
  List.replicate 4 ' '
    ++ List.replicate (CHUNK_LENGTH * 3) ' '
    ++ List.replicate (NUM_SEGMENTS_PER_CHUNK - 1) ' '
    ++ hex8 len

/-- Rust `Iterator::enumerate` starting at `n`, applied to a chunk list. -/
def enumerateFrom (n : Nat) : List (List Nat) → List (Nat × List Nat)
  | [] => []
  | c :: cs => (n, c) :: enumerateFrom (n + 1) cs

/-- The `Hexdump` iterator state from src/imp.rs: total length, remaining
enumerated chunks, and the summary-emitted flag. -/
structure Hexdump where
  len : Nat
  chunks : List (Nat × List Nat)
  summary_done : Bool

/-- `hexdump_iter` / `Hexdump::new` from src/imp.rs. -/
def hexdump_iter (bytes : List Nat) : Hexdump :=
  { len := bytes.length
    chunks := enumerateFrom 0 (chunksN CHUNK_LENGTH bytes)
    summary_done := false }

/-- `Iterator::next` for `Hexdump`: the next chunk if any, else the summary
(guarded by the flag), else exhausted. -/
def Hexdump.next : Hexdump → Option (List Char × Hexdump)
  | ⟨len, (i, c) :: rest, d⟩ => some (hexdump_chunk i c, ⟨len, rest, d⟩)
  | ⟨len, [], false⟩ => some (hexdump_summary len, ⟨len, [], true⟩)
  | ⟨_, [], true⟩ => none

/-- `DoubleEndedIterator::next_back` for `Hexdump`: the summary first
(guarded by the flag), then chunks from the back. -/
def Hexdump.next_back : Hexdump → Option (List Char × Hexdump)
  | ⟨len, cs, false⟩ => some (hexdump_summary len, ⟨len, cs, true⟩)
  | ⟨len, cs, true⟩ =>
    cs.getLast?.map (fun p => (hexdump_chunk p.1 p.2, ⟨len, cs.dropLast, true⟩))

/-- `ExactSizeIterator::len` for `Hexdump`. -/
def Hexdump.lenReport (s : Hexdump) : Nat :=
  s.chunks.length + (if s.summary_done then 0 else 1)

/-- The list of lines a state will still yield under forward consumption
(specification-level view of the iterator state). -/
def linesOf (s : Hexdump) : List (List Char) :=
  s.chunks.map (fun p => hexdump_chunk p.1 p.2)
    ++ (if s.summary_done then [] else [hexdump_summary s.len])

/-- Forward consumption with fuel: repeatedly call `next`, collecting lines. -/
def consumeFront : Nat → Hexdump → List (List Char)
  | 0, _ => []
  | fuel + 1, s =>
    match s.next with
    | none => []
    | some (l, s') => l :: consumeFront fuel s'

/-- Backward consumption with fuel: repeatedly call `next_back`. -/
def consumeBack : Nat → Hexdump → List (List Char)
  | 0, _ => []
  | fuel + 1, s =>
    match s.next_back with
    | none => []
    | some (l, s') => l :: consumeBack fuel s'

/-- All lines of the hexdump of `bytes`, by full forward consumption. -/
def hexdumpLines (bytes : List Nat) : List (List Char) :=
  consumeFront (hexdump_iter bytes).lenReport (hexdump_iter bytes)

/-- All lines of the hexdump of `bytes`, by full backward consumption. -/
def hexdumpLinesBack (bytes : List Nat) : List (List Char) :=
  consumeBack (hexdump_iter bytes).lenReport (hexdump_iter bytes)

/-- Interleaved consumption: for each direction in `dirs` (`true` = front,
`false` = back) perform one pull; return collected lines and final state. -/
def pullsAux : List Bool → Hexdump → List (List Char) × Hexdump
  | [], s => ([], s)
  | d :: ds, s =>
    match (if d then s.next else s.next_back) with
    | none => pullsAux ds s
    | some (l, s') =>
      let r := pullsAux ds s'
      (l :: r.1, r.2)

/-- The `ArrayString` write path of one chunk line.  Writes only ever append
to the buffer, so every `write`'s `unwrap` in `hexdump_chunk` succeeds
exactly when the whole content fits the `BUFFER_LENGTH`-byte capacity;
otherwise the first write that would overflow fails, its `unwrap` panics,
and no line is produced (`none`). -/
def renderChunk? (i : Nat) (chunk : List Nat) : Option (List Char) :=
  if (hexdump_chunk i chunk).length ≤ BUFFER_LENGTH then some (hexdump_chunk i chunk)
  else none

/-- The `ArrayString` write path of the summary line: `none` models the
`unwrap` panic when the content exceeds the buffer capacity. -/
def renderSummary? (len : Nat) : Option (List Char) :=
  if (hexdump_summary len).length ≤ BUFFER_LENGTH then some (hexdump_summary len)
  else none

/-- Panic-aware `Iterator::next`: outer `none` means the iterator is
exhausted, `some (none, _)` means the rendering of the requested line
panicked on a buffer overflow. -/
def Hexdump.nextP : Hexdump → Option (Option (List Char) × Hexdump)
  | ⟨len, (i, c) :: rest, d⟩ => some (renderChunk? i c, ⟨len, rest, d⟩)
  | ⟨len, [], false⟩ => some (renderSummary? len, ⟨len, [], true⟩)
  | ⟨_, [], true⟩ => none

/-- Panic-aware `DoubleEndedIterator::next_back`. -/
def Hexdump.next_backP : Hexdump → Option (Option (List Char) × Hexdump)
  | ⟨len, cs, false⟩ => some (renderSummary? len, ⟨len, cs, true⟩)
  | ⟨len, cs, true⟩ =>
    cs.getLast?.map (fun p => (renderChunk? p.1 p.2, ⟨len, cs.dropLast, true⟩))

/-- Panic-aware forward consumption: the lines yielded before any panic,
and whether a panic aborted consumption. -/
def consumeFrontP : Nat → Hexdump → List (List Char) × Bool
  | 0, _ => ([], false)
  | fuel + 1, s =>
    match s.nextP with
    | none => ([], false)
    | some (none, _) => ([], true)
    | some (some l, s') =>
      let r := consumeFrontP fuel s'
      (l :: r.1, r.2)

/-- Panic-aware backward consumption. -/
def consumeBackP : Nat → Hexdump → List (List Char) × Bool
  | 0, _ => ([], false)
  | fuel + 1, s =>
    match s.next_backP with
    | none => ([], false)
    | some (none, _) => ([], true)
    | some (some l, s') =>
      let r := consumeBackP fuel s'
      (l :: r.1, r.2)

/-- The lines the program actually produces on forward consumption, with the
panic flag. -/
def hexdumpLinesP (bytes : List Nat) : List (List Char) × Bool :=
  consumeFrontP (hexdump_iter bytes).lenReport (hexdump_iter bytes)

/-- The lines the program actually produces on backward consumption, with
the panic flag. -/
def hexdumpLinesBackP (bytes : List Nat) : List (List Char) × Bool :=
  consumeBackP (hexdump_iter bytes).lenReport (hexdump_iter bytes)

/-- Panic-aware interleaved consumption: lines collected before any panic,
the final state, and the panic flag (a panic aborts the remaining pulls). -/
def pullsAuxP : List Bool → Hexdump → List (List Char) × Hexdump × Bool
  | [], s => ([], s, false)
  | d :: ds, s =>
    match (if d then s.nextP else s.next_backP) with
    | none => pullsAuxP ds s
    | some (none, _) => ([], s, true)
    | some (some l, s') =>
      let r := pullsAuxP ds s'
      (l :: r.1, r.2)

/-- A 16^9 + 1 byte input whose only printable byte sits in the final chunk,
at offset `16^9`. -/
def coverageInput : List Nat := List.replicate (16 ^ 9) 0 ++ [0x41]

/-- Value of one hex digit character, or `none` (spec-side parsing helper). -/
def hexVal (c : Char) : Option Nat :=
  if '0' ≤ c ∧ c ≤ '9' then some (c.toNat - 48)
  else if 'a' ≤ c ∧ c ≤ 'f' then some (c.toNat - 87)
  else if 'A' ≤ c ∧ c ≤ 'F' then some (c.toNat - 55)
  else none

/-- Parsing a character list as a hexadecimal number, in the sense of the
spec's summary round-trip property (`usize::from_str_radix(_, 16)`):
fails on the empty string or any non-hex-digit character. -/
def fromHexChars (l : List Char) : Option Nat :=
  if l.isEmpty then none
  else l.foldl (fun acc c => acc.bind fun a => (hexVal c).map fun v => 16 * a + v) (some 0)

/-- `str::trim` restricted to the characters that can occur in a hexdump
line: drop whitespace from both ends. -/
def trimChars (l : List Char) : List Char :=
  ((l.dropWhile Char.isWhitespace).reverse.dropWhile Char.isWhitespace).reverse

/-- A character is printable ASCII: in `[0x20, 0x7F)`. -/
def printable (c : Char) : Prop := 0x20 ≤ c.toNat ∧ c.toNat < 0x7f

instance (c : Char) : Decidable (printable c) := by
  unfold printable; infer_instance

/-- The 17-byte example input `b"12345\0\r\n\t .abcdef"` from the crate
documentation. -/
def exampleInput : List Nat :=
  [0x31, 0x32, 0x33, 0x34, 0x35, 0x00, 0x0d, 0x0a, 0x09, 0x20, 0x2e,
   0x61, 0x62, 0x63, 0x64, 0x65, 0x66]

/-! ### Hex digit machinery -/

theorem hexDigitsLEAux_lt : ∀ fuel n d, d ∈ hexDigitsLEAux fuel n → d < 16 := by
  intro fuel
  induction fuel with
  | zero => intro n d h; simp [hexDigitsLEAux] at h
  | succ fuel ih =>
    intro n d h
    simp only [hexDigitsLEAux] at h
    by_cases hn : n = 0
    · simp [hn] at h
    · simp only [hn, if_false, List.mem_cons] at h
      rcases h with h | h
      · subst h; exact Nat.mod_lt _ (by omega)
      · exact ih _ _ h

theorem hexDigitsLEAux_length_le :
    ∀ fuel w n, n < 16 ^ w → (hexDigitsLEAux fuel n).length ≤ w := by
  intro fuel
  induction fuel with
  | zero => intro w n _; simp [hexDigitsLEAux]
  | succ fuel ih =>
    intro w n hn
    simp only [hexDigitsLEAux]
    by_cases h0 : n = 0
    · simp [h0]
    · cases w with
      | zero => simp at hn; omega
      | succ w =>
        simp only [h0, if_false, List.length_cons]
        have : n / 16 < 16 ^ w := by
          rw [Nat.div_lt_iff_lt_mul (by omega)]
          calc n < 16 ^ (w + 1) := hn
            _ = 16 ^ w * 16 := by rw [Nat.pow_succ]
        exact Nat.succ_le_succ (ih w (n / 16) this)

theorem hexMin_length (w n : Nat) :
    (hexMin w n).length = max w (hexDigitsLE n).length := by
  simp only [hexMin, List.length_map, List.length_append, List.length_replicate,
    List.length_reverse]
  omega

theorem hexMin_length_of_lt {w n : Nat} (h : n < 16 ^ w) : (hexMin w n).length = w := by
  have := hexDigitsLEAux_length_le n w n h
  rw [hexMin_length]
  simp only [hexDigitsLE]
  omega

theorem hex2_length {b : Nat} (h : b < 256) : (hex2 b).length = 2 :=
  hexMin_length_of_lt (by norm_num; omega)

theorem hex8_length {n : Nat} (h : n < 2 ^ 32) : (hex8 n).length = 8 :=
  hexMin_length_of_lt (by norm_num; omega)

theorem mem_hexMin {c : Char} {w n : Nat} (h : c ∈ hexMin w n) :
    ∃ d, d < 16 ∧ c = hexDigit d := by
  simp only [hexMin, List.mem_map, List.mem_append, List.mem_replicate,
    List.mem_reverse] at h
  obtain ⟨d, hd, rfl⟩ := h
  rcases hd with ⟨-, rfl⟩ | hd
  · exact ⟨0, by omega, rfl⟩
  · exact ⟨d, hexDigitsLEAux_lt _ _ _ hd, rfl⟩

/-! ### Chunk partition facts -/

theorem chunksAux_nil (k fuel : Nat) : chunksAux k fuel [] = [] := by
  cases fuel <;> simp [chunksAux]

theorem chunksAux4_spec :
    ∀ fuel l, l ≠ [] → l.length ≤ fuel →
      chunksAux 4 fuel l ≠ [] ∧
      (chunksAux 4 fuel l).flatten = l ∧
      lastSegLen (chunksAux 4 fuel l) + 4 * ((chunksAux 4 fuel l).length - 1) = l.length ∧
      1 ≤ lastSegLen (chunksAux 4 fuel l) ∧ lastSegLen (chunksAux 4 fuel l) ≤ 4 := by
  intro fuel
  induction fuel with
  | zero =>
    intro l hne hlen
    cases l with
    | nil => exact absurd rfl hne
    | cons a l' => simp at hlen
  | succ fuel ih =>
    intro l hne hlen
    cases l with
    | nil => exact absurd rfl hne
    | cons a l' =>
      simp only [chunksAux]
      by_cases hsmall : (a :: l').length ≤ 4
      · have hdrop : (a :: l').drop 4 = [] := by
          rw [List.drop_eq_nil_iff]; omega
        have htake : (a :: l').take 4 = a :: l' := List.take_of_length_le hsmall
        rw [hdrop, chunksAux_nil, htake]
        have hsl : lastSegLen [a :: l'] = (a :: l').length := rfl
        simp only [List.length_cons] at hsmall
        refine ⟨by simp, by simp, ?_, ?_, ?_⟩ <;>
          simp [hsl, hsmall]
      · have hdne : (a :: l').drop 4 ≠ [] := by
          intro h
          rw [List.drop_eq_nil_iff] at h
          omega
        have hdlen : ((a :: l').drop 4).length ≤ fuel := by
          simp only [List.length_drop]
          simp at hlen ⊢
          omega
        obtain ⟨hne', hflat, harith, hlo, hhi⟩ := ih _ hdne hdlen
        have htlen : ((a :: l').take 4).length = 4 := by
          simp only [List.length_take]
          omega
        cases hrest : chunksAux 4 fuel ((a :: l').drop 4) with
        | nil => exact absurd hrest hne'
        | cons s rest =>
          rw [hrest] at hflat harith hlo hhi
          have hlast : lastSegLen ((a :: l').take 4 :: s :: rest) = lastSegLen (s :: rest) := by
            simp only [lastSegLen, List.getLast?_cons_cons]
          refine ⟨by simp, ?_, ?_, ?_, ?_⟩
          · simp only [List.flatten_cons] at hflat ⊢
            rw [hflat]
            exact List.take_append_drop 4 (a :: l')
          · rw [hlast]
            have hdl : ((a :: l').drop 4).length = (a :: l').length - 4 := by
              simp [List.length_drop]
            rw [hdl] at harith
            simp only [List.length_cons] at harith hsmall ⊢
            omega
          · rw [hlast]; exact hlo
          · rw [hlast]; exact hhi

theorem segHex_length {s : List Nat} (h : ∀ b ∈ s, b < 256) :
    (segHex s).length = 2 * s.length := by
  induction s with
  | nil => simp [segHex]
  | cons a s ih =>
    simp only [segHex, List.map_cons, List.flatten_cons, List.length_append,
      List.length_cons] at ih ⊢
    rw [hex2_length (h a (by simp)), ih (fun b hb => h b (by simp [hb]))]
    ring

theorem hexBody_length :
    ∀ segs, segs ≠ [] → (∀ s ∈ segs, ∀ b ∈ s, b < 256) →
      (hexBody segs).length = 2 * segs.flatten.length + (segs.length - 1) := by
  intro segs
  induction segs with
  | nil => intro h; exact absurd rfl h
  | cons s rest ih =>
    intro _ hb
    cases rest with
    | nil =>
      simp only [hexBody, List.flatten_cons, List.flatten_nil, List.append_nil,
        List.length_singleton]
      rw [segHex_length (hb s (by simp))]
      omega
    | cons s2 rest2 =>
      simp only [hexBody, List.length_append, List.length_cons, List.flatten_cons,
        List.length_singleton]
      rw [segHex_length (hb s (by simp)),
        ih (by simp) (fun t ht b hbb => hb t (by simp [ht]) b hbb)]
      simp only [List.flatten_cons, List.length_append, List.length_cons]
      omega

/-- Core width fact: a nonempty chunk of at most 16 bytes renders to 55
characters plus the offset field. -/
theorem hexdump_chunk_length {i : Nat} {chunk : List Nat} (hne : chunk ≠ [])
    (hlen : chunk.length ≤ 16) (hb : ∀ b ∈ chunk, b < 256) :
    (hexdump_chunk i chunk).length = 55 + (hex8 (i * CHUNK_LENGTH)).length := by
  obtain ⟨hne', hflat, harith, hlo, hhi⟩ :=
    chunksAux4_spec chunk.length chunk hne (Nat.le_refl _)
  have hsegb : ∀ s ∈ chunksAux 4 chunk.length chunk, ∀ b ∈ s, b < 256 := by
    intro s hs b hbs
    exact hb b (by rw [← hflat]; exact List.mem_flatten.mpr ⟨s, hs, hbs⟩)
  have hbody := hexBody_length _ hne' hsegb
  rw [hflat] at hbody
  have hns : 1 ≤ (chunksAux 4 chunk.length chunk).length := List.length_pos.mpr hne'
  simp only [hexdump_chunk, chunksN, SEGMENT_LENGTH, NUM_SEGMENTS_PER_CHUNK, CHUNK_LENGTH,
    List.length_append, List.length_cons, List.length_nil, List.length_replicate,
    List.length_map]
  norm_num
  rw [hbody]
  omega

/-- The summary line is 55 characters plus the length field. -/
theorem hexdump_summary_length (len : Nat) :
    (hexdump_summary len).length = 55 + (hex8 len).length := by
  simp only [hexdump_summary, List.length_append, List.length_replicate,
    CHUNK_LENGTH, NUM_SEGMENTS_PER_CHUNK, SEGMENT_LENGTH]

theorem chunksAux16_length :
    ∀ fuel l, l.length ≤ fuel →
      (chunksAux 16 fuel l).length = (l.length + 15) / 16 := by
  intro fuel
  induction fuel with
  | zero =>
    intro l hlen
    have : l = [] := by
      cases l with
      | nil => rfl
      | cons a l' => simp at hlen
    subst this
    simp [chunksAux_nil]
  | succ fuel ih =>
    intro l hlen
    cases l with
    | nil => simp [chunksAux_nil]
    | cons a l' =>
      simp only [chunksAux, List.length_cons]
      have hdlen : ((a :: l').drop 16).length ≤ fuel := by
        simp only [List.length_drop, List.length_cons] at hlen ⊢
        omega
      rw [ih _ hdlen]
      simp only [List.length_drop, List.length_cons]
      omega

theorem chunksAux16_flatten :
    ∀ fuel l, l.length ≤ fuel → (chunksAux 16 fuel l).flatten = l := by
  intro fuel
  induction fuel with
  | zero =>
    intro l hlen
    cases l with
    | nil => simp [chunksAux_nil]
    | cons a l' => simp at hlen
  | succ fuel ih =>
    intro l hlen
    cases l with
    | nil => simp [chunksAux_nil]
    | cons a l' =>
      simp only [chunksAux, List.flatten_cons]
      have hdlen : ((a :: l').drop 16).length ≤ fuel := by
        simp only [List.length_drop, List.length_cons] at hlen ⊢
        omega
      rw [ih _ hdlen]
      exact List.take_append_drop 16 (a :: l')

theorem chunksAux16_mem :
    ∀ fuel l c, c ∈ chunksAux 16 fuel l → c ≠ [] ∧ c.length ≤ 16 := by
  intro fuel
  induction fuel with
  | zero => intro l c h; simp [chunksAux] at h
  | succ fuel ih =>
    intro l c h
    cases l with
    | nil => simp [chunksAux] at h
    | cons a l' =>
      simp only [chunksAux, List.mem_cons] at h
      rcases h with rfl | h
      · constructor
        · simp
        · simp only [List.length_take]
          omega
      · exact ih _ _ h

/-! ### Enumeration facts -/

theorem enumerateFrom_length : ∀ (n : Nat) (cs : List (List Nat)),
    (enumerateFrom n cs).length = cs.length := by
  intro n cs
  induction cs generalizing n with
  | nil => simp [enumerateFrom]
  | cons c cs ih => simp [enumerateFrom, ih]

theorem enumerateFrom_mem : ∀ (cs : List (List Nat)) (n i : Nat) (c : List Nat),
    (i, c) ∈ enumerateFrom n cs → c ∈ cs ∧ n ≤ i ∧ i - n < cs.length := by
  intro cs
  induction cs with
  | nil => intro n i c h; simp [enumerateFrom] at h
  | cons d cs ih =>
    intro n i c h
    simp only [enumerateFrom, List.mem_cons, Prod.mk.injEq] at h
    rcases h with ⟨rfl, rfl⟩ | h
    · simp
    · obtain ⟨hc, hle, hlt⟩ := ih (n + 1) i c h
      exact ⟨by simp [hc], by omega, by simp; omega⟩

theorem enumerateFrom_mem_of_mem : ∀ (cs : List (List Nat)) (c : List Nat) (n : Nat),
    c ∈ cs → ∃ i, (i, c) ∈ enumerateFrom n cs := by
  intro cs
  induction cs with
  | nil => intro c n h; simp at h
  | cons d cs ih =>
    intro c n h
    rcases List.mem_cons.mp h with rfl | h
    · exact ⟨n, by simp [enumerateFrom]⟩
    · obtain ⟨i, hi⟩ := ih c (n + 1) h
      exact ⟨i, by simp [enumerateFrom, hi]⟩

/-! ### Iterator state machine facts -/

theorem linesOf_length (s : Hexdump) : (linesOf s).length = s.lenReport := by
  rcases s with ⟨len, cs, d⟩
  cases d <;> simp [linesOf, Hexdump.lenReport]

theorem next_none {s : Hexdump} (h : s.next = none) : linesOf s = [] := by
  rcases s with ⟨len, cs, d⟩
  rcases cs with _ | ⟨⟨i, c⟩, rest⟩ <;> cases d <;>
    simp_all [Hexdump.next, linesOf]

theorem next_some {s s' : Hexdump} {l : List Char} (h : s.next = some (l, s')) :
    linesOf s = l :: linesOf s' := by
  rcases s with ⟨len, cs, d⟩
  rcases cs with _ | ⟨⟨i, c⟩, rest⟩
  · cases d
    · simp only [Hexdump.next, Option.some.injEq, Prod.mk.injEq] at h
      obtain ⟨rfl, rfl⟩ := h
      simp [linesOf]
    · simp [Hexdump.next] at h
  · simp only [Hexdump.next, Option.some.injEq, Prod.mk.injEq] at h
    obtain ⟨rfl, rfl⟩ := h
    simp [linesOf]

theorem next_back_none {s : Hexdump} (h : s.next_back = none) : linesOf s = [] := by
  rcases s with ⟨len, cs, d⟩
  cases d
  · simp [Hexdump.next_back] at h
  · simp only [Hexdump.next_back, Option.map_eq_none', List.getLast?_eq_none_iff] at h
    simp [linesOf, h]

theorem next_back_some {s s' : Hexdump} {l : List Char} (h : s.next_back = some (l, s')) :
    linesOf s = linesOf s' ++ [l] := by
  rcases s with ⟨len, cs, d⟩
  cases d
  · simp only [Hexdump.next_back, Option.some.injEq, Prod.mk.injEq] at h
    obtain ⟨rfl, rfl⟩ := h
    simp [linesOf]
  · simp only [Hexdump.next_back, Option.map_eq_some'] at h
    obtain ⟨p, hlast, heq⟩ := h
    have hcs : cs ≠ [] := by
      intro hnil; subst hnil; simp at hlast
    obtain ⟨rfl, rfl⟩ := Prod.mk.injEq .. ▸ heq
    have hget : cs.getLast hcs = p := by
      rw [List.getLast?_eq_getLast cs hcs] at hlast
      exact Option.some_injective _ hlast
    simp only [linesOf, List.append_nil, if_pos rfl]
    conv_lhs => rw [← List.dropLast_append_getLast hcs]
    rw [List.map_append, hget]
    simp

theorem consumeFront_eq :
    ∀ fuel s, (linesOf s).length ≤ fuel → consumeFront fuel s = linesOf s := by
  intro fuel
  induction fuel with
  | zero =>
    intro s h
    have : linesOf s = [] := List.length_eq_zero.mp (by omega)
    simp [consumeFront, this]
  | succ fuel ih =>
    intro s h
    cases hn : s.next with
    | none => simp [consumeFront, hn, next_none hn]
    | some p =>
      obtain ⟨l, s'⟩ := p
      have hlines := next_some hn
      simp only [consumeFront, hn]
      rw [ih s' (by rw [hlines] at h; simp at h; omega), hlines]

theorem consumeBack_eq :
    ∀ fuel s, (linesOf s).length ≤ fuel → consumeBack fuel s = (linesOf s).reverse := by
  intro fuel
  induction fuel with
  | zero =>
    intro s h
    have : linesOf s = [] := List.length_eq_zero.mp (by omega)
    simp [consumeBack, this]
  | succ fuel ih =>
    intro s h
    cases hn : s.next_back with
    | none => simp [consumeBack, hn, next_back_none hn]
    | some p =>
      obtain ⟨l, s'⟩ := p
      have hlines := next_back_some hn
      simp only [consumeBack, hn]
      rw [ih s' (by rw [hlines] at h; simp at h; omega), hlines]
      simp

/-- The chunk lines of the hexdump of `bytes`, in forward order. -/
def chunkLines (bytes : List Nat) : List (List Char) :=
  (enumerateFrom 0 (chunksN CHUNK_LENGTH bytes)).map (fun p => hexdump_chunk p.1 p.2)

theorem linesOf_iter (bytes : List Nat) :
    linesOf (hexdump_iter bytes) = chunkLines bytes ++ [hexdump_summary bytes.length] := by
  simp [linesOf, hexdump_iter, chunkLines]

theorem hexdumpLines_eq (bytes : List Nat) :
    hexdumpLines bytes = chunkLines bytes ++ [hexdump_summary bytes.length] := by
  rw [hexdumpLines, consumeFront_eq _ _ (by rw [linesOf_length]), linesOf_iter]

theorem hexdumpLinesBack_eq (bytes : List Nat) :
    hexdumpLinesBack bytes = hexdump_summary bytes.length :: (chunkLines bytes).reverse := by
  rw [hexdumpLinesBack, consumeBack_eq _ _ (by rw [linesOf_length]), linesOf_iter]
  simp

theorem pullsAux_multiset :
    ∀ (dirs : List Bool) (s : Hexdump),
      Multiset.ofList (pullsAux dirs s).1 + Multiset.ofList (linesOf (pullsAux dirs s).2)
        = Multiset.ofList (linesOf s) := by
  intro dirs
  induction dirs with
  | nil => intro s; simp [pullsAux]
  | cons d ds ih =>
    intro s
    simp only [pullsAux]
    cases hp : (if d then s.next else s.next_back) with
    | none =>
      cases d
      · simp only [if_neg (by decide : ¬ (false = true))] at hp
        simp [ih s]
      · simp only [if_pos rfl] at hp
        simp [ih s]
    | some p =>
      obtain ⟨l, s'⟩ := p
      have hstep : Multiset.ofList (linesOf s) = l ::ₘ Multiset.ofList (linesOf s') := by
        cases d
        · simp only [if_neg (by decide : ¬ (false = true))] at hp
          rw [next_back_some hp, ← Multiset.coe_add, add_comm, Multiset.coe_add]
          exact (Multiset.cons_coe l (linesOf s')).symm
        · simp only [if_pos rfl] at hp
          rw [next_some hp]
          simp [Multiset.cons_coe]
      simp only []
      rw [hstep, ← ih s']
      simp only [← Multiset.cons_coe]
      rw [Multiset.cons_add]

/-! ### Summary round-trip: trimming and hexadecimal parsing -/

theorem hexDigit_not_whitespace : ∀ d, d < 16 → (hexDigit d).isWhitespace = false := by
  decide

theorem hexVal_hexDigit : ∀ d, d < 16 → hexVal (hexDigit d) = some d := by
  decide

theorem dropWhile_ws_replicate_space (m : Nat) (l : List Char) :
    (List.replicate m ' ' ++ l).dropWhile Char.isWhitespace
      = l.dropWhile Char.isWhitespace := by
  induction m with
  | zero => simp
  | succ m ih =>
    rw [List.replicate_succ, List.cons_append, List.dropWhile_cons]
    simp [ih]

theorem dropWhile_eq_self_of_all_false {p : Char → Bool} {l : List Char}
    (h : ∀ c ∈ l, p c = false) : l.dropWhile p = l := by
  cases l with
  | nil => rfl
  | cons c l' => rw [List.dropWhile_cons, h c (by simp)]; simp

theorem hexMin_all_digits {w n : Nat} :
    ∀ c ∈ hexMin w n, (∃ d, d < 16 ∧ c = hexDigit d) := fun _ hc => mem_hexMin hc

theorem trimChars_spaces_hexMin (m w n : Nat) :
    trimChars (List.replicate m ' ' ++ hexMin w n) = hexMin w n := by
  have hws : ∀ c ∈ hexMin w n, c.isWhitespace = false := by
    intro c hc
    obtain ⟨d, hd, rfl⟩ := mem_hexMin hc
    exact hexDigit_not_whitespace d hd
  rw [trimChars, dropWhile_ws_replicate_space,
    dropWhile_eq_self_of_all_false hws,
    dropWhile_eq_self_of_all_false (fun c hc => hws c (List.mem_reverse.mp hc)),
    List.reverse_reverse]

/-- The summary line is 55 spaces followed by the `{:08x}` text of the length. -/
theorem hexdump_summary_spaces (len : Nat) :
    hexdump_summary len = List.replicate 55 ' ' ++ hex8 len := by
  simp only [hexdump_summary, CHUNK_LENGTH, NUM_SEGMENTS_PER_CHUNK, SEGMENT_LENGTH]
  norm_num

theorem foldl_hexDigitsLEAux :
    ∀ fuel n a, n ≤ fuel →
      List.foldl (fun x d => 16 * x + d) a (hexDigitsLEAux fuel n).reverse
        = a * 16 ^ (hexDigitsLEAux fuel n).length + n := by
  intro fuel
  induction fuel with
  | zero =>
    intro n a h
    have : n = 0 := by omega
    subst this
    simp [hexDigitsLEAux]
  | succ fuel ih =>
    intro n a h
    by_cases h0 : n = 0
    · subst h0; simp [hexDigitsLEAux]
    · simp only [hexDigitsLEAux, h0, if_false, List.reverse_cons, List.length_cons]
      rw [List.foldl_append, ih (n / 16) a (by omega)]
      simp only [List.foldl_cons, List.foldl_nil]
      rw [pow_succ, ← mul_assoc]
      have hdm := Nat.div_add_mod n 16
      omega

theorem foldl_parse_digits :
    ∀ (ds : List Nat) (a : Nat), (∀ d ∈ ds, d < 16) →
      List.foldl (fun acc c => acc.bind fun x => (hexVal c).map fun v => 16 * x + v)
          (some a) (ds.map hexDigit)
        = some (List.foldl (fun x d => 16 * x + d) a ds) := by
  intro ds
  induction ds with
  | nil => intro a _; simp
  | cons d ds ih =>
    intro a hd
    simp only [List.map_cons, List.foldl_cons, Option.bind_some,
      hexVal_hexDigit d (hd d (by simp)), Option.map_some]
    exact ih _ (fun e he => hd e (by simp [he]))

theorem foldl_mul16_replicate_zero :
    ∀ m, List.foldl (fun x d => 16 * x + d) 0 (List.replicate m 0) = 0 := by
  intro m
  induction m with
  | zero => rfl
  | succ m ih => rw [List.replicate_succ]; simpa using ih

theorem fromHexChars_hexMin {w n : Nat} (hw : 0 < w) (hn : n < 16 ^ w) :
    fromHexChars (hexMin w n) = some n := by
  have hlen : (hexMin w n).length = w := hexMin_length_of_lt hn
  have hne : ¬ (hexMin w n).isEmpty := by
    rw [List.isEmpty_iff]
    intro h
    rw [h] at hlen
    simp at hlen
    omega
  rw [fromHexChars, if_neg hne]
  simp only [hexMin]
  rw [List.map_append]
  have hzd : ∀ d ∈ List.replicate (w - (hexDigitsLE n).length) (0 : Nat), d < 16 := by
    intro d hd
    rw [List.mem_replicate] at hd
    omega
  have hrd : ∀ d ∈ (hexDigitsLE n).reverse, d < 16 := by
    intro d hd
    exact hexDigitsLEAux_lt n n d (List.mem_reverse.mp hd)
  have hall : ∀ d ∈ List.replicate (w - (hexDigitsLE n).length) (0 : Nat)
      ++ (hexDigitsLE n).reverse, d < 16 := by
    intro d hd
    rcases List.mem_append.mp hd with hd | hd
    · exact hzd d hd
    · exact hrd d hd
  rw [← List.map_append, foldl_parse_digits _ 0 hall, List.foldl_append,
    foldl_mul16_replicate_zero]
  rw [show (hexDigitsLE n) = hexDigitsLEAux n n from rfl,
    foldl_hexDigitsLEAux n n 0 (Nat.le_refl n)]
  simp

/-- Parsing the trimmed summary line as hexadecimal recovers the length. -/
theorem parse_trim_summary {len : Nat} (h : len < 2 ^ 32) :
    fromHexChars (trimChars (hexdump_summary len)) = some len := by
  rw [hexdump_summary_spaces]
  simp only [hex8]
  rw [trimChars_spaces_hexMin 55 8 len]
  exact fromHexChars_hexMin (by omega) (by norm_num; omega)

/-! ### Printable-output facts -/

theorem printable_hexDigit : ∀ d, d < 16 → printable (hexDigit d) := by
  decide

theorem printable_space : printable ' ' := by decide

theorem printable_pipe : printable '|' := by decide

theorem printable_ofNat_ascii : ∀ b, b < 0x7f → 0x20 ≤ b → printable (Char.ofNat b) := by
  decide

theorem printable_sanitize (b : Nat) : printable (sanitize_byte b) := by
  rw [sanitize_byte]
  split
  · next h => exact printable_ofNat_ascii b h.2 h.1
  · decide

theorem printable_hexMin {w n : Nat} : ∀ c ∈ hexMin w n, printable c := by
  intro c hc
  obtain ⟨d, hd, rfl⟩ := mem_hexMin hc
  exact printable_hexDigit d hd

theorem printable_segHex {s : List Nat} : ∀ c ∈ segHex s, printable c := by
  intro c hc
  simp only [segHex, List.mem_flatten, List.mem_map] at hc
  obtain ⟨l, ⟨b, -, rfl⟩, hcl⟩ := hc
  exact printable_hexMin c hcl

theorem printable_hexBody : ∀ segs, ∀ c ∈ hexBody segs, printable c := by
  intro segs
  induction segs with
  | nil => intro c hc; simp [hexBody] at hc
  | cons s rest ih =>
    intro c hc
    cases rest with
    | nil => exact printable_segHex c hc
    | cons s2 rest2 =>
      simp only [hexBody, List.mem_append, List.mem_cons] at hc
      rcases hc with hc | hc | hc
      · exact printable_segHex c hc
      · subst hc; exact printable_space
      · exact ih c hc

theorem printable_replicate_space (m : Nat) : ∀ c ∈ List.replicate m ' ', printable c := by
  intro c hc
  rcases (List.mem_replicate.mp hc).2 with rfl
  exact printable_space

theorem printable_hexdump_chunk (i : Nat) (chunk : List Nat) :
    ∀ c ∈ hexdump_chunk i chunk, printable c := by
  intro c hc
  simp only [hexdump_chunk, List.mem_append] at hc
  rcases hc with ((((((((hc | hc) | hc) | hc) | hc) | hc) | hc) | hc) | hc)
  · rcases List.mem_singleton.mp hc with rfl
    exact printable_pipe
  · exact printable_hexBody _ c hc
  · simp only [List.mem_cons, List.mem_singleton, List.not_mem_nil, or_false] at hc
    rcases hc with rfl | rfl
    · exact printable_pipe
    · exact printable_space
  · exact printable_replicate_space _ c hc
  · exact printable_replicate_space _ c hc
  · obtain ⟨b, -, rfl⟩ := List.mem_map.mp hc
    exact printable_sanitize b
  · exact printable_replicate_space _ c hc
  · rcases List.mem_singleton.mp hc with rfl
    exact printable_space
  · exact printable_hexMin c hc

theorem printable_hexdump_summary (len : Nat) :
    ∀ c ∈ hexdump_summary len, printable c := by
  intro c hc
  rw [hexdump_summary_spaces] at hc
  rcases List.mem_append.mp hc with hc | hc
  · rcases (List.mem_replicate.mp hc).2 with rfl
    exact printable_space
  · exact printable_hexMin c hc

/-! ### Buffer-capacity facts and the panic-aware consumption -/

theorem hex8_length_le {m w : Nat} (h8 : 8 ≤ w) (hm : m < 16 ^ w) :
    (hex8 m).length ≤ w := by
  have := hexDigitsLEAux_length_le m w m hm
  rw [hex8, hexMin_length]
  simp only [hexDigitsLE]
  omega

/-- Every enumerated chunk of an input of length at most `16^9` renders to a
line that fits the buffer (offsets stay below `16^9`, hence at most 9 hex
digits). -/
theorem chunks_fit {bytes : List Nat} (hb : ∀ b ∈ bytes, b < 256)
    (hlen : bytes.length ≤ 16 ^ 9) :
    ∀ q ∈ enumerateFrom 0 (chunksN CHUNK_LENGTH bytes),
      (hexdump_chunk q.1 q.2).length ≤ BUFFER_LENGTH := by
  intro q hq
  obtain ⟨i, c⟩ := q
  obtain ⟨hcmem, -, hilt⟩ := enumerateFrom_mem _ 0 i c hq
  have hcmem16 : c ∈ chunksAux 16 bytes.length bytes := hcmem
  obtain ⟨hcne, hcle⟩ := chunksAux16_mem bytes.length bytes c hcmem16
  have hcb : ∀ b ∈ c, b < 256 := by
    intro b hbc
    apply hb
    rw [← chunksAux16_flatten bytes.length bytes (Nat.le_refl _)]
    exact List.mem_flatten.mpr ⟨c, hcmem16, hbc⟩
  have hnum := chunksAux16_length bytes.length bytes (Nat.le_refl _)
  simp only [chunksN, CHUNK_LENGTH] at hilt
  rw [hnum] at hilt
  have hoff : i * CHUNK_LENGTH < 16 ^ 9 := by
    simp only [CHUNK_LENGTH]
    have h9 : (16 : Nat) ^ 9 = 68719476736 := by norm_num
    rw [h9] at hlen ⊢
    omega
  show (hexdump_chunk i c).length ≤ BUFFER_LENGTH
  rw [hexdump_chunk_length hcne hcle hcb, BUFFER_LENGTH]
  have := hex8_length_le (by norm_num) hoff
  omega

/-- The summary line of a length below `16^9` fits the buffer. -/
theorem summary_fit {len : Nat} (h : len < 16 ^ 9) :
    (hexdump_summary len).length ≤ BUFFER_LENGTH := by
  rw [hexdump_summary_length, BUFFER_LENGTH]
  have := @hex8_length_le len 9 (by norm_num) h
  omega

/-- For valid bytes and length below `16^9`, every line of the model
sequence fits the buffer. -/
theorem linesOf_iter_fit {bytes : List Nat} (hb : ∀ b ∈ bytes, b < 256)
    (hlen : bytes.length < 16 ^ 9) :
    ∀ l ∈ linesOf (hexdump_iter bytes), l.length ≤ BUFFER_LENGTH := by
  intro l hl
  rw [linesOf_iter] at hl
  rcases List.mem_append.mp hl with hl | hl
  · simp only [chunkLines, List.mem_map] at hl
    obtain ⟨q, hq, rfl⟩ := hl
    exact chunks_fit hb (Nat.le_of_lt hlen) q hq
  · rcases List.mem_singleton.mp hl with rfl
    exact summary_fit hlen

theorem nextP_of_next_some {s s' : Hexdump} {l : List Char}
    (h : s.next = some (l, s')) (hfit : l.length ≤ BUFFER_LENGTH) :
    s.nextP = some (some l, s') := by
  rcases s with ⟨len, cs, d⟩
  rcases cs with _ | ⟨⟨i, c⟩, rest⟩
  · cases d
    · simp only [Hexdump.next, Option.some.injEq, Prod.mk.injEq] at h
      obtain ⟨rfl, rfl⟩ := h
      simp [Hexdump.nextP, renderSummary?, hfit]
    · simp [Hexdump.next] at h
  · simp only [Hexdump.next, Option.some.injEq, Prod.mk.injEq] at h
    obtain ⟨rfl, rfl⟩ := h
    simp [Hexdump.nextP, renderChunk?, hfit]

theorem nextP_of_next_none {s : Hexdump} (h : s.next = none) : s.nextP = none := by
  rcases s with ⟨len, cs, d⟩
  rcases cs with _ | ⟨⟨i, c⟩, rest⟩
  · cases d
    · simp [Hexdump.next] at h
    · simp [Hexdump.nextP]
  · simp [Hexdump.next] at h

theorem next_backP_of_some {s s' : Hexdump} {l : List Char}
    (h : s.next_back = some (l, s')) (hfit : l.length ≤ BUFFER_LENGTH) :
    s.next_backP = some (some l, s') := by
  rcases s with ⟨len, cs, d⟩
  cases d
  · simp only [Hexdump.next_back, Option.some.injEq, Prod.mk.injEq] at h
    obtain ⟨rfl, rfl⟩ := h
    simp [Hexdump.next_backP, renderSummary?, hfit]
  · simp only [Hexdump.next_back, Option.map_eq_some'] at h
    obtain ⟨p, hlast, heq⟩ := h
    obtain ⟨rfl, rfl⟩ := Prod.mk.injEq .. ▸ heq
    simp [Hexdump.next_backP, hlast, renderChunk?, hfit]

theorem next_backP_of_none {s : Hexdump} (h : s.next_back = none) :
    s.next_backP = none := by
  rcases s with ⟨len, cs, d⟩
  cases d
  · simp [Hexdump.next_back] at h
  · simp only [Hexdump.next_back, Option.map_eq_none', List.getLast?_eq_none_iff] at h
    subst h
    simp [Hexdump.next_backP]

/-- When every remaining line fits the buffer, panic-aware forward
consumption produces exactly the model lines with no panic. -/
theorem consumeFrontP_all_fit :
    ∀ fuel s, (linesOf s).length ≤ fuel →
      (∀ l ∈ linesOf s, l.length ≤ BUFFER_LENGTH) →
      consumeFrontP fuel s = (linesOf s, false) := by
  intro fuel
  induction fuel with
  | zero =>
    intro s h _
    have hnil : linesOf s = [] := List.length_eq_zero.mp (by omega)
    simp [consumeFrontP, hnil]
  | succ fuel ih =>
    intro s h hfits
    cases hn : s.next with
    | none =>
      simp only [consumeFrontP, nextP_of_next_none hn]
      rw [next_none hn]
    | some p =>
      obtain ⟨l, s'⟩ := p
      have hlines := next_some hn
      have hfit : l.length ≤ BUFFER_LENGTH := hfits l (by rw [hlines]; simp)
      simp only [consumeFrontP, nextP_of_next_some hn hfit]
      rw [ih s' (by rw [hlines] at h; simp at h; omega)
            (fun l' hl' => hfits l' (by rw [hlines]; simp [hl']))]
      rw [hlines]

/-- When every chunk line fits but the summary does not, panic-aware
forward consumption yields all the chunk lines and then panics on the
summary, producing one line fewer than the model sequence. -/
theorem consumeFrontP_summary_panic :
    ∀ fuel s, s.lenReport ≤ fuel → s.summary_done = false →
      (∀ q ∈ s.chunks, (hexdump_chunk q.1 q.2).length ≤ BUFFER_LENGTH) →
      BUFFER_LENGTH < (hexdump_summary s.len).length →
      consumeFrontP fuel s = (s.chunks.map (fun q => hexdump_chunk q.1 q.2), true) := by
  intro fuel
  induction fuel with
  | zero =>
    intro s hfuel hd _ _
    rcases s with ⟨len, cs, d⟩
    have hdd : d = false := hd
    subst hdd
    simp [Hexdump.lenReport] at hfuel
  | succ fuel ih =>
    intro s hfuel hd hcs hsum
    rcases s with ⟨len, cs, d⟩
    have hdd : d = false := hd
    subst hdd
    replace hsum : BUFFER_LENGTH < (hexdump_summary len).length := hsum
    cases cs with
    | nil =>
      have hr : renderSummary? len = none := by
        rw [renderSummary?, if_neg (by omega)]
      simp [consumeFrontP, Hexdump.nextP, hr]
    | cons q rest =>
      obtain ⟨i, c⟩ := q
      have hfit : (hexdump_chunk i c).length ≤ BUFFER_LENGTH := hcs (i, c) (by simp)
      simp only [consumeFrontP, Hexdump.nextP, renderChunk?, if_pos hfit]
      rw [ih ⟨len, rest, false⟩ (by simp [Hexdump.lenReport] at hfuel ⊢; omega) rfl
            (fun q' hq' => hcs q' (by simp [hq'])) hsum]
      simp

/-- When a chunk whose line overflows the buffer is reached, panic-aware
forward consumption yields exactly the (fitting) lines before it and
panics there. -/
theorem consumeFrontP_chunk_panic :
    ∀ (pre : List (Nat × List Nat)) (fuel : Nat) (s : Hexdump)
      (p : Nat × List Nat) (post : List (Nat × List Nat)),
      s.chunks = pre ++ p :: post →
      s.chunks.length < fuel →
      (∀ q ∈ pre, (hexdump_chunk q.1 q.2).length ≤ BUFFER_LENGTH) →
      BUFFER_LENGTH < (hexdump_chunk p.1 p.2).length →
      consumeFrontP fuel s = (pre.map (fun q => hexdump_chunk q.1 q.2), true) := by
  intro pre
  induction pre with
  | nil =>
    intro fuel s p post hchunks hfuel _ hp
    rcases s with ⟨len, cs, d⟩
    simp only [List.nil_append] at hchunks
    subst hchunks
    obtain ⟨pi, pc⟩ := p
    replace hp : BUFFER_LENGTH < (hexdump_chunk pi pc).length := hp
    cases fuel with
    | zero => simp at hfuel
    | succ fuel =>
      have hr : renderChunk? pi pc = none := by
        rw [renderChunk?, if_neg (by omega)]
      simp [consumeFrontP, Hexdump.nextP, hr]
  | cons q pre' ih =>
    intro fuel s p post hchunks hfuel hpre hp
    rcases s with ⟨len, cs, d⟩
    simp only [List.cons_append] at hchunks
    subst hchunks
    obtain ⟨qi, qc⟩ := q
    cases fuel with
    | zero => simp at hfuel
    | succ fuel =>
      have hfit : (hexdump_chunk qi qc).length ≤ BUFFER_LENGTH := hpre (qi, qc) (by simp)
      simp only [consumeFrontP, Hexdump.nextP, renderChunk?, if_pos hfit]
      rw [ih fuel ⟨len, pre' ++ p :: post, d⟩ p post rfl
            (by simp at hfuel ⊢; omega)
            (fun q' hq' => hpre q' (by simp [hq'])) hp]
      simp

/-- When every remaining line fits the buffer, panic-aware backward
consumption produces the model lines in reverse with no panic. -/
theorem consumeBackP_all_fit :
    ∀ fuel s, (linesOf s).length ≤ fuel →
      (∀ l ∈ linesOf s, l.length ≤ BUFFER_LENGTH) →
      consumeBackP fuel s = ((linesOf s).reverse, false) := by
  intro fuel
  induction fuel with
  | zero =>
    intro s h _
    have hnil : linesOf s = [] := List.length_eq_zero.mp (by omega)
    simp [consumeBackP, hnil]
  | succ fuel ih =>
    intro s h hfits
    cases hn : s.next_back with
    | none =>
      simp only [consumeBackP, next_backP_of_none hn]
      rw [next_back_none hn]
      rfl
    | some p =>
      obtain ⟨l, s'⟩ := p
      have hlines := next_back_some hn
      have hfit : l.length ≤ BUFFER_LENGTH := hfits l (by rw [hlines]; simp)
      simp only [consumeBackP, next_backP_of_some hn hfit]
      rw [ih s' (by rw [hlines] at h; simp at h; omega)
            (fun l' hl' => hfits l' (by rw [hlines]; simp [hl']))]
      rw [hlines]
      simp

/-- When the summary line overflows the buffer, the very first backward
pull panics and yields nothing at all. -/
theorem consumeBackP_panic_first {fuel : Nat} {s : Hexdump} (hfuel : 0 < fuel)
    (hd : s.summary_done = false)
    (hsum : BUFFER_LENGTH < (hexdump_summary s.len).length) :
    consumeBackP fuel s = ([], true) := by
  rcases s with ⟨len, cs, d⟩
  have hdd : d = false := hd
  subst hdd
  replace hsum : BUFFER_LENGTH < (hexdump_summary len).length := hsum
  cases fuel with
  | zero => omega
  | succ fuel =>
    have hr : renderSummary? len = none := by
      rw [renderSummary?, if_neg (by omega)]
    simp [consumeBackP, Hexdump.next_backP, hr]

/-- When every remaining line fits, panic-aware interleaved consumption
agrees with the panic-free one and never panics. -/
theorem pullsAuxP_all_fit :
    ∀ (dirs : List Bool) (s : Hexdump),
      (∀ l ∈ linesOf s, l.length ≤ BUFFER_LENGTH) →
      pullsAuxP dirs s = ((pullsAux dirs s).1, (pullsAux dirs s).2, false) := by
  intro dirs
  induction dirs with
  | nil => intro s _; rfl
  | cons d ds ih =>
    intro s hfits
    cases d
    · cases hn : s.next_back with
      | none =>
        simp only [pullsAuxP, pullsAux, if_neg (by decide : ¬ (false = true)),
          hn, next_backP_of_none hn]
        exact ih s hfits
      | some p =>
        obtain ⟨l, s'⟩ := p
        have hlines := next_back_some hn
        have hfit : l.length ≤ BUFFER_LENGTH := hfits l (by rw [hlines]; simp)
        simp only [pullsAuxP, pullsAux, if_neg (by decide : ¬ (false = true)),
          hn, next_backP_of_some hn hfit]
        rw [ih s' (fun l' hl' => hfits l' (by rw [hlines]; simp [hl']))]
    · cases hn : s.next with
      | none =>
        simp only [pullsAuxP, pullsAux, if_pos rfl, if_true, hn,
          nextP_of_next_none hn]
        exact ih s hfits
      | some p =>
        obtain ⟨l, s'⟩ := p
        have hlines := next_some hn
        have hfit : l.length ≤ BUFFER_LENGTH := hfits l (by rw [hlines]; simp)
        simp only [pullsAuxP, pullsAux, if_pos rfl, if_true, hn,
          nextP_of_next_some hn hfit]
        rw [ih s' (fun l' hl' => hfits l' (by rw [hlines]; simp [hl']))]

/-- Under fitting chunk lines, the produced lines start with all the chunk
lines (followed by the summary when it fits, nothing otherwise). -/
theorem hexdumpLinesP_chunks_start {bytes : List Nat}
    (hchunks : ∀ q ∈ enumerateFrom 0 (chunksN CHUNK_LENGTH bytes),
        (hexdump_chunk q.1 q.2).length ≤ BUFFER_LENGTH) :
    ∃ rest, (hexdumpLinesP bytes).1 = chunkLines bytes ++ rest := by
  by_cases hs : (hexdump_summary bytes.length).length ≤ BUFFER_LENGTH
  · refine ⟨[hexdump_summary bytes.length], ?_⟩
    have hfits : ∀ l ∈ linesOf (hexdump_iter bytes), l.length ≤ BUFFER_LENGTH := by
      intro l hl
      rw [linesOf_iter] at hl
      rcases List.mem_append.mp hl with hl | hl
      · simp only [chunkLines, List.mem_map] at hl
        obtain ⟨q, hq, rfl⟩ := hl
        exact hchunks q hq
      · rcases List.mem_singleton.mp hl with rfl
        exact hs
    rw [hexdumpLinesP, consumeFrontP_all_fit _ _ (by rw [linesOf_length]) hfits]
    rw [show ((linesOf (hexdump_iter bytes), false) :
        List (List Char) × Bool).1 = linesOf (hexdump_iter bytes) from rfl, linesOf_iter]
  · refine ⟨[], ?_⟩
    rw [hexdumpLinesP, consumeFrontP_summary_panic _ _ (Nat.le_refl _) rfl hchunks
      (by show BUFFER_LENGTH < (hexdump_summary bytes.length).length; omega)]
    show (hexdump_iter bytes).chunks.map (fun q => hexdump_chunk q.1 q.2)
      = chunkLines bytes ++ []
    rw [List.append_nil]
    rfl

theorem chunksAux_fuel_irrel {k : Nat} (hk : 0 < k) :
    ∀ fuel fuel' (l : List Nat), l.length ≤ fuel → l.length ≤ fuel' →
      chunksAux k fuel l = chunksAux k fuel' l := by
  intro fuel
  induction fuel with
  | zero =>
    intro fuel' l h _
    have : l = [] := by
      cases l with
      | nil => rfl
      | cons a l' => simp at h
    subst this
    rw [chunksAux_nil, chunksAux_nil]
  | succ fuel ih =>
    intro fuel' l h h'
    cases l with
    | nil => rw [chunksAux_nil, chunksAux_nil]
    | cons a l' =>
      cases fuel' with
      | zero => simp at h'
      | succ fuel' =>
        simp only [chunksAux]
        rw [ih fuel' ((a :: l').drop k)
          (by simp only [List.length_drop, List.length_cons] at h ⊢; omega)
          (by simp only [List.length_drop, List.length_cons] at h' ⊢; omega)]

theorem chunksN_cons_step {k : Nat} (hk : 0 < k) {l : List Nat} (hne : l ≠ []) :
    chunksN k l = l.take k :: chunksN k (l.drop k) := by
  cases l with
  | nil => exact absurd rfl hne
  | cons a l' =>
    show chunksAux k (a :: l').length (a :: l') = _
    simp only [List.length_cons, chunksAux]
    rw [chunksAux_fuel_irrel hk l'.length ((a :: l').drop k).length ((a :: l').drop k)
      (by simp only [List.length_drop, List.length_cons]; omega) (Nat.le_refl _)]
    rfl

/-- `slice::chunks(16)` distributes over an append at a multiple of 16. -/
theorem chunksN16_append_mul :
    ∀ (n : Nat) (l1 l2 : List Nat), l1.length = 16 * n →
      chunksN 16 (l1 ++ l2) = chunksN 16 l1 ++ chunksN 16 l2 := by
  intro n
  induction n with
  | zero =>
    intro l1 l2 h
    have : l1 = [] := List.length_eq_zero.mp (by omega)
    subst this
    show chunksN 16 l2 = chunksAux 16 0 [] ++ chunksN 16 l2
    rw [chunksAux_nil, List.nil_append]
  | succ n ih =>
    intro l1 l2 h
    have hne1 : l1 ≠ [] := by
      intro hh
      subst hh
      simp at h
    have h16 : 16 ≤ l1.length := by omega
    by_cases h2 : l1 ++ l2 = []
    · exact absurd (List.append_eq_nil.mp h2).1 hne1
    rw [chunksN_cons_step (by omega) h2, chunksN_cons_step (by omega) hne1,
      List.take_append_of_le_length h16, List.drop_append_of_le_length h16,
      ih (l1.drop 16) l2 (by simp only [List.length_drop]; omega), List.cons_append]

theorem enumerateFrom_append :
    ∀ (xs ys : List (List Nat)) (n : Nat),
      enumerateFrom n (xs ++ ys)
        = enumerateFrom n xs ++ enumerateFrom (n + xs.length) ys := by
  intro xs
  induction xs with
  | nil => intro ys n; simp [enumerateFrom]
  | cons x xs ih =>
    intro ys n
    simp only [List.cons_append, enumerateFrom, List.length_cons]
    show (n, x) :: enumerateFrom (n + 1) (xs ++ ys)
        = (n, x) :: (enumerateFrom (n + 1) xs ++ enumerateFrom (n + (xs.length + 1)) ys)
    rw [ih ys (n + 1)]
    have h : n + 1 + xs.length = n + (xs.length + 1) := by omega
    rw [h]

/-- Every character of a segment's hex text is a hex digit. -/
theorem mem_segHex_cases {c' : Char} {s : List Nat} (h : c' ∈ segHex s) :
    ∃ d, d < 16 ∧ c' = hexDigit d := by
  simp only [segHex, List.mem_flatten, List.mem_map] at h
  obtain ⟨l, ⟨b, -, rfl⟩, hcl⟩ := h
  exact mem_hexMin hcl

/-- Every character of the hex field is a space or a hex digit. -/
theorem mem_hexBody_cases :
    ∀ segs, ∀ c' ∈ hexBody segs, c' = ' ' ∨ ∃ d, d < 16 ∧ c' = hexDigit d := by
  intro segs
  induction segs with
  | nil => intro c' h; simp [hexBody] at h
  | cons s rest ih =>
    intro c' h
    cases rest with
    | nil => exact Or.inr (mem_segHex_cases h)
    | cons s2 r2 =>
      simp only [hexBody, List.mem_append, List.mem_cons] at h
      rcases h with h | h | h
      · exact Or.inr (mem_segHex_cases h)
      · exact Or.inl h
      · exact ih c' h

/-- Every character of a chunk line is a pipe, a space, a hex digit, or a
sanitized byte of the chunk. -/
theorem mem_hexdump_chunk_cases {c' : Char} {i : Nat} {chunk : List Nat}
    (h : c' ∈ hexdump_chunk i chunk) :
    c' = '|' ∨ c' = ' ' ∨ (∃ d, d < 16 ∧ c' = hexDigit d)
      ∨ ∃ b ∈ chunk, c' = sanitize_byte b := by
  simp only [hexdump_chunk, List.mem_append] at h
  rcases h with ((((((((h | h) | h) | h) | h) | h) | h) | h) | h)
  · exact Or.inl (List.mem_singleton.mp h)
  · rcases mem_hexBody_cases _ c' h with h | h
    · exact Or.inr (Or.inl h)
    · exact Or.inr (Or.inr (Or.inl h))
  · simp only [List.mem_cons, List.mem_singleton, List.not_mem_nil, or_false] at h
    rcases h with rfl | rfl
    · exact Or.inl rfl
    · exact Or.inr (Or.inl rfl)
  · exact Or.inr (Or.inl (List.mem_replicate.mp h).2)
  · exact Or.inr (Or.inl (List.mem_replicate.mp h).2)
  · obtain ⟨b, hb, rfl⟩ := List.mem_map.mp h
    exact Or.inr (Or.inr (Or.inr ⟨b, hb, rfl⟩))
  · exact Or.inr (Or.inl (List.mem_replicate.mp h).2)
  · exact Or.inr (Or.inl (List.mem_singleton.mp h))
  · rcases mem_hexMin h with ⟨d, hd, rfl⟩
    exact Or.inr (Or.inr (Or.inl ⟨d, hd, rfl⟩))

theorem hexdump_iter_chunks (bytes : List Nat) :
    (hexdump_iter bytes).chunks = enumerateFrom 0 (chunksN CHUNK_LENGTH bytes) := rfl

theorem hexdump_iter_lenReport (bytes : List Nat) :
    (hexdump_iter bytes).lenReport = (hexdump_iter bytes).chunks.length + 1 := rfl

theorem chunksN_eq_chunksAux (k : Nat) (l : List Nat) :
    chunksN k l = chunksAux k l.length l := rfl

theorem enumerateFrom_singleton (n : Nat) (c : List Nat) :
    enumerateFrom n [c] = [(n, c)] := rfl

theorem fstPair {α β : Type} (x : α) (y : β) : (Prod.mk x y).1 = x := rfl

theorem sndPair {α β : Type} (x : α) (y : β) : (Prod.mk x y).2 = y := rfl

/-! ### Claim theorems -/

/-- C1: for the 17-byte input `b"12345\0\r\n\t .abcdef"` the hexdump sequence
yields exactly three lines: the full first chunk line (hex field
`31323334 35000d0a 09202e61 62636465`, ASCII field `12345.... .abcde`,
offset `00000000`), the short second chunk line (hex field `66` with the
remaining hex columns space-padded, ASCII field `f` followed by 15 spaces,
offset `00000010`), and the summary line ending in `00000011`. -/
theorem hexdump_example_lines :
    hexdumpLines exampleInput =
      ["|31323334 35000d0a 09202e61 62636465| 12345.... .abcde 00000000".toList,
       "|66|                                  f                00000010".toList,
       "                                                       00000011".toList] := by
  decide

/-- C2 (amended): for every input of valid byte values and of length below
`16^9` (so that no line overflows the 64-byte line buffer and no write
panics), the hexdump sequence produces exactly `ceil(L/16) + 1` lines with
no panic — exactly one summary line and no chunk lines when `L = 0` — and
the reported exact remaining length matches that count; unconditionally, at
every state the reported remaining length equals the number of unconsumed
chunks plus 1 if the summary has not been emitted, else 0. -/
theorem hexdump_line_count :
    (∀ bytes : List Nat, (∀ b ∈ bytes, b < 256) → bytes.length < 16 ^ 9 →
        (hexdumpLinesP bytes).2 = false
        ∧ (hexdumpLinesP bytes).1.length
            = (bytes.length + CHUNK_LENGTH - 1) / CHUNK_LENGTH + 1
        ∧ (hexdump_iter bytes).lenReport = (hexdumpLinesP bytes).1.length)
    ∧ (hexdumpLinesP []).1 = [hexdump_summary 0]
    ∧ (∀ s : Hexdump,
        s.lenReport = s.chunks.length + (if s.summary_done = false then 1 else 0)) := by
  refine ⟨fun bytes hb hlen => ?_, by decide, fun s => ?_⟩
  · have hrun := consumeFrontP_all_fit (hexdump_iter bytes).lenReport (hexdump_iter bytes)
      (by rw [linesOf_length]) (linesOf_iter_fit hb hlen)
    refine ⟨by rw [hexdumpLinesP, hrun], ?_, ?_⟩
    · rw [hexdumpLinesP, hrun]
      show (linesOf (hexdump_iter bytes)).length = _
      rw [linesOf_iter]
      simp only [chunkLines, List.length_append, List.length_map, List.length_singleton,
        enumerateFrom_length, chunksN, CHUNK_LENGTH,
        chunksAux16_length bytes.length bytes (Nat.le_refl _)]
      omega
    · rw [hexdumpLinesP, hrun]
      show (hexdump_iter bytes).lenReport = (linesOf (hexdump_iter bytes)).length
      rw [linesOf_length]
  · rcases s with ⟨len, cs, d⟩
    cases d <;> simp [Hexdump.lenReport]

/-- Witness for C2 at a concrete input. -/
theorem hexdump_line_count_witness :
    (hexdumpLinesP [1]).2 = false
    ∧ (hexdumpLinesP [1]).1.length
        = (([1] : List Nat).length + CHUNK_LENGTH - 1) / CHUNK_LENGTH + 1
    ∧ (hexdump_iter [1]).lenReport = (hexdumpLinesP [1]).1.length :=
  hexdump_line_count.1 [1] (by decide) (by decide)

/-- C2 counterexample: the claim as stated (for every input) fails. For the
input of `16^9` zero bytes every chunk line fits the buffer (64 characters
at the largest offsets) but the summary line needs 65 characters, so its
write's `unwrap` panics: the program produces only the `ceil(L/16)` chunk
lines and aborts, one line short of the claimed `ceil(L/16) + 1`. -/
theorem hexdump_line_count_counterexample :
    (hexdumpLinesP (List.replicate (16 ^ 9) 0)).2 = true
    ∧ (hexdumpLinesP (List.replicate (16 ^ 9) 0)).1.length
        ≠ ((List.replicate (16 ^ 9) 0 : List Nat).length + CHUNK_LENGTH - 1)
            / CHUNK_LENGTH + 1 := by
  have hb : ∀ b ∈ (List.replicate (16 ^ 9) 0 : List Nat), b < 256 := by
    intro b hbm
    rcases (List.mem_replicate.mp hbm).2 with rfl
    omega
  have hlen : (List.replicate (16 ^ 9) 0 : List Nat).length ≤ 16 ^ 9 := by
    rw [List.length_replicate]
  have hsum : BUFFER_LENGTH
      < (hexdump_summary (hexdump_iter (List.replicate (16 ^ 9) 0)).len).length := by
    show BUFFER_LENGTH < (hexdump_summary (List.replicate (16 ^ 9) 0).length).length
    rw [List.length_replicate]
    decide
  have hd0 : (hexdump_iter (List.replicate (16 ^ 9) 0)).summary_done = false := rfl
  have hcf : ∀ q ∈ (hexdump_iter (List.replicate (16 ^ 9) 0)).chunks,
      (hexdump_chunk q.1 q.2).length ≤ BUFFER_LENGTH := by
    rw [hexdump_iter_chunks]
    exact chunks_fit hb hlen
  have hrun := consumeFrontP_summary_panic (hexdump_iter (List.replicate (16 ^ 9) 0)).lenReport
    (hexdump_iter (List.replicate (16 ^ 9) 0)) (Nat.le_refl _) hd0 hcf hsum
  have e1 : (hexdumpLinesP (List.replicate (16 ^ 9) 0)).1
      = (hexdump_iter (List.replicate (16 ^ 9) 0)).chunks.map
          (fun q => hexdump_chunk q.1 q.2) := by
    rw [hexdumpLinesP, hrun]
  have e2 : ((hexdump_iter (List.replicate (16 ^ 9) 0)).chunks.map
      (fun q => hexdump_chunk q.1 q.2)).length = 16 ^ 8 := by
    rw [hexdump_iter_chunks, List.length_map, enumerateFrom_length, chunksN_eq_chunksAux]
    simp only [CHUNK_LENGTH]
    rw [chunksAux16_length _ _ (Nat.le_refl _), List.length_replicate]
    norm_num
  constructor
  · rw [hexdumpLinesP, hrun]
  · rw [e1, e2, List.length_replicate]
    simp only [CHUNK_LENGTH]
    norm_num

/-- C3 (amended): for every input of valid byte values and of length below
`16^9` (so that no line overflows the buffer and no rendering panics),
reverse consumption yields the summary line first and then the chunk lines
from last to first with no panic; and any interleaving of front/back pulls
is panic-free, and when it exhausts the sequence the multiset of collected
lines equals that of forward-only consumption (each line yielded exactly
once). -/
theorem hexdump_reverse_interleave :
    ∀ bytes : List Nat, (∀ b ∈ bytes, b < 256) → bytes.length < 16 ^ 9 →
      hexdumpLinesBackP bytes
          = (hexdump_summary bytes.length :: (chunkLines bytes).reverse, false)
      ∧ ∀ dirs : List Bool,
          (pullsAuxP dirs (hexdump_iter bytes)).2.2 = false
          ∧ (linesOf (pullsAuxP dirs (hexdump_iter bytes)).2.1 = [] →
              Multiset.ofList (pullsAuxP dirs (hexdump_iter bytes)).1
                = Multiset.ofList (hexdumpLines bytes)) := by
  intro bytes hb hlen
  have hfits := linesOf_iter_fit hb hlen
  constructor
  · rw [hexdumpLinesBackP, consumeBackP_all_fit _ _ (by rw [linesOf_length]) hfits,
      linesOf_iter]
    simp
  · intro dirs
    have hP := pullsAuxP_all_fit dirs (hexdump_iter bytes) hfits
    refine ⟨by rw [hP], ?_⟩
    intro hdone
    rw [hP] at hdone
    rw [hP]
    replace hdone : linesOf (pullsAux dirs (hexdump_iter bytes)).2 = [] := hdone
    show Multiset.ofList (pullsAux dirs (hexdump_iter bytes)).1
        = Multiset.ofList (hexdumpLines bytes)
    have h := pullsAux_multiset dirs (hexdump_iter bytes)
    rw [hdone] at h
    simp only [Multiset.coe_nil, add_zero] at h
    rw [hexdumpLines, consumeFront_eq _ _ (by rw [linesOf_length])]
    exact h

/-- Witness for C3 at a concrete input and pull pattern. -/
theorem hexdump_reverse_interleave_witness :
    hexdumpLinesBackP [1, 2]
        = (hexdump_summary ([1, 2] : List Nat).length :: (chunkLines [1, 2]).reverse, false)
    ∧ (pullsAuxP [false, true, false] (hexdump_iter [1, 2])).2.2 = false
    ∧ linesOf (pullsAuxP [false, true, false] (hexdump_iter [1, 2])).2.1 = []
    ∧ Multiset.ofList (pullsAuxP [false, true, false] (hexdump_iter [1, 2])).1
        = Multiset.ofList (hexdumpLines [1, 2]) := by
  have h := hexdump_reverse_interleave [1, 2] (by decide) (by decide)
  exact ⟨h.1, (h.2 [false, true, false]).1, by decide,
    (h.2 [false, true, false]).2 (by decide)⟩

/-- C3 counterexample: the claim as stated (for every input) fails. For the
input of `16^9` zero bytes, the very first backward pull renders the
summary, whose 65 characters overflow the 64-byte buffer: the `unwrap`
panics, so reverse consumption yields no lines at all — in particular not
the summary line first. -/
theorem hexdump_reverse_interleave_counterexample :
    hexdumpLinesBackP (List.replicate (16 ^ 9) 0) = ([], true) := by
  rw [hexdumpLinesBackP]
  apply consumeBackP_panic_first
  · rw [hexdump_iter_lenReport]
    omega
  · rfl
  · show BUFFER_LENGTH < (hexdump_summary (List.replicate (16 ^ 9) 0).length).length
    rw [List.length_replicate]
    decide

/-- C4 (amended): for every input of byte values and of length below `2^32`
(so that every offset and the total length format in exactly 8 hex digits),
every produced line has the same character length as the summary line of the
empty input; the empty input produces exactly that one summary line. -/
theorem hexdump_uniform_width {bytes : List Nat}
    (hb : ∀ b ∈ bytes, b < 256) (hlen : bytes.length < 2 ^ 32) :
    (∀ line ∈ hexdumpLines bytes, line.length = (hexdump_summary 0).length)
    ∧ hexdumpLines [] = [hexdump_summary 0] := by
  have hsum0 : (hexdump_summary 0).length = 63 := by decide
  constructor
  · intro line hl
    rw [hexdumpLines_eq] at hl
    rcases List.mem_append.mp hl with hl | hl
    · simp only [chunkLines, List.mem_map] at hl
      obtain ⟨p, hic, rfl⟩ := hl
      obtain ⟨i, c⟩ := p
      obtain ⟨hcmem, -, hilt⟩ := enumerateFrom_mem _ 0 i c hic
      obtain ⟨hcne, hcle⟩ := chunksAux16_mem bytes.length bytes c hcmem
      have hcb : ∀ b ∈ c, b < 256 := by
        intro b hbc
        apply hb
        rw [← chunksAux16_flatten bytes.length bytes (Nat.le_refl _)]
        exact List.mem_flatten.mpr ⟨c, hcmem, hbc⟩
      have hnum := chunksAux16_length bytes.length bytes (Nat.le_refl _)
      simp only [chunksN, CHUNK_LENGTH] at hilt
      rw [hnum] at hilt
      have hoff : i * CHUNK_LENGTH < 2 ^ 32 := by
        simp only [CHUNK_LENGTH]
        omega
      show (hexdump_chunk i c).length = (hexdump_summary 0).length
      rw [hexdump_chunk_length hcne hcle hcb, hex8_length hoff, hsum0]
    · rcases List.mem_singleton.mp hl with rfl
      rw [hexdump_summary_length, hex8_length hlen, hsum0]
  · decide

/-- Witness for C4 at a concrete input. -/
theorem hexdump_uniform_width_witness :
    (∀ b ∈ ([0x41] : List Nat), b < 256) ∧ ([0x41] : List Nat).length < 2 ^ 32
    ∧ (hexdump_chunk 0 [0x41]).length = (hexdump_summary 0).length :=
  ⟨by decide, by decide,
    (@hexdump_uniform_width [0x41] (by decide) (by decide)).1 _ (by decide)⟩

/-- C4 counterexample: the claim as stated (for every input) fails. For the
input of `2^32` zero bytes, the summary line is produced (no write overflows
the buffer: it is exactly 64 characters) but it is one character wider than
the empty input's 63-character summary line, so not all lines share the
empty-input width. -/
theorem hexdump_uniform_width_counterexample :
    hexdump_summary (2 ^ 32) ∈ hexdumpLines (List.replicate (2 ^ 32) 0)
    ∧ (hexdump_summary (2 ^ 32)).length ≠ (hexdump_summary 0).length := by
  constructor
  · rw [hexdumpLines_eq]
    apply List.mem_append_right
    rw [List.length_replicate]
    exact List.mem_singleton.mpr rfl
  · decide

/-- C5: for every input whose length fits in 8 hexadecimal digits, the last
produced line is the summary line, and parsing its trimmed text as a
hexadecimal number yields exactly the input length. -/
theorem hexdump_summary_roundtrip {bytes : List Nat} (h : bytes.length < 2 ^ 32) :
    (hexdumpLines bytes).getLast? = some (hexdump_summary bytes.length)
    ∧ fromHexChars (trimChars (hexdump_summary bytes.length)) = some bytes.length := by
  constructor
  · rw [hexdumpLines_eq]
    exact List.getLast?_concat _
  · exact parse_trim_summary h

/-- Witness for C5 at a concrete input. -/
theorem hexdump_summary_roundtrip_witness :
    (hexdumpLines [1, 2, 3]).getLast? = some (hexdump_summary ([1, 2, 3] : List Nat).length)
    ∧ fromHexChars (trimChars (hexdump_summary ([1, 2, 3] : List Nat).length))
        = some ([1, 2, 3] : List Nat).length :=
  hexdump_summary_roundtrip (by decide)

/-- C6: for every byte value, `sanitize_byte` returns the byte reinterpreted
as a character when it lies in `[0x20, 0x7F)` and the ASCII dot otherwise;
being a total Lean function of the byte alone it is total, pure and
deterministic, with no error conditions. -/
theorem sanitize_byte_spec :
    ∀ b : Nat, b < 256 →
      (0x20 ≤ b ∧ b < 0x7f → sanitize_byte b = Char.ofNat b)
      ∧ (¬ (0x20 ≤ b ∧ b < 0x7f) → sanitize_byte b = '.') := by
  intro b _
  constructor
  · intro h
    rw [sanitize_byte, if_pos h]
  · intro h
    rw [sanitize_byte, if_neg h]

/-- Witness for C6 at the byte values 0x41 and 0x00. -/
theorem sanitize_byte_spec_witness :
    (0x41 : Nat) < 256 ∧ (0 : Nat) < 256
    ∧ sanitize_byte 0x41 = Char.ofNat 0x41 ∧ sanitize_byte 0 = '.' :=
  ⟨by decide, by decide, (sanitize_byte_spec 0x41 (by decide)).1 (by decide),
    (sanitize_byte_spec 0 (by decide)).2 (by decide)⟩

/-- C7: for every input, every character of every produced line is printable
ASCII in `[0x20, 0x7F)`. -/
theorem hexdump_printable_output :
    ∀ (bytes : List Nat), ∀ line ∈ hexdumpLines bytes, ∀ c ∈ line,
      0x20 ≤ c.toNat ∧ c.toNat < 0x7f := by
  intro bytes line hl c hc
  rw [hexdumpLines_eq] at hl
  rcases List.mem_append.mp hl with hl | hl
  · simp only [chunkLines, List.mem_map] at hl
    obtain ⟨p, -, rfl⟩ := hl
    exact printable_hexdump_chunk p.1 p.2 c hc
  · rcases List.mem_singleton.mp hl with rfl
    exact printable_hexdump_summary _ c hc

/-- Witness for C7 at a concrete input, line and character. -/
theorem hexdump_printable_output_witness :
    hexdump_chunk 0 [0] ∈ hexdumpLines [0] ∧ '|' ∈ hexdump_chunk 0 [0]
    ∧ (0x20 ≤ '|'.toNat ∧ '|'.toNat < 0x7f) :=
  ⟨by decide, by decide,
    hexdump_printable_output [0] (hexdump_chunk 0 [0]) (by decide) '|' (by decide)⟩

/-- C8 (amended): for every input of valid byte values and of length at most
`16^9` (so that every chunk line the program reaches fits the buffer and is
actually produced before any summary panic), every printable-ASCII byte
occurring in the input appears as that same character somewhere in the
concatenation of all produced lines. -/
theorem hexdump_char_coverage :
    ∀ bytes : List Nat, (∀ b' ∈ bytes, b' < 256) → bytes.length ≤ 16 ^ 9 →
      ∀ b ∈ bytes, 0x20 ≤ b → b < 0x7f →
        Char.ofNat b ∈ (hexdumpLinesP bytes).1.flatten := by
  intro bytes hb256 hlen b hbmem hlo hhi
  have hmem : b ∈ (chunksN CHUNK_LENGTH bytes).flatten := by
    rw [show chunksN CHUNK_LENGTH bytes = chunksAux 16 bytes.length bytes from rfl,
      chunksAux16_flatten bytes.length bytes (Nat.le_refl _)]
    exact hbmem
  obtain ⟨c, hcmem, hbc⟩ := List.mem_flatten.mp hmem
  obtain ⟨i, hic⟩ := enumerateFrom_mem_of_mem _ c 0 hcmem
  have hline : hexdump_chunk i c ∈ chunkLines bytes :=
    List.mem_map.mpr ⟨(i, c), hic, rfl⟩
  have hm : Char.ofNat b ∈ c.map sanitize_byte := by
    refine List.mem_map.mpr ⟨b, hbc, ?_⟩
    rw [sanitize_byte, if_pos ⟨hlo, hhi⟩]
  have hchar : Char.ofNat b ∈ hexdump_chunk i c := by
    simp only [hexdump_chunk, List.mem_append]
    tauto
  obtain ⟨rest, hrest⟩ := hexdumpLinesP_chunks_start (chunks_fit hb256 hlen)
  refine List.mem_flatten.mpr ⟨hexdump_chunk i c, ?_, hchar⟩
  rw [hrest]
  exact List.mem_append_left _ hline

/-- Witness for C8 at a concrete input and byte. -/
theorem hexdump_char_coverage_witness :
    (∀ b' ∈ ([0x41] : List Nat), b' < 256) ∧ ([0x41] : List Nat).length ≤ 16 ^ 9
    ∧ (0x41 : Nat) ∈ ([0x41] : List Nat) ∧ 0x20 ≤ (0x41 : Nat) ∧ (0x41 : Nat) < 0x7f
    ∧ Char.ofNat 0x41 ∈ (hexdumpLinesP [0x41]).1.flatten :=
  ⟨by decide, by decide, by decide, by decide, by decide,
    hexdump_char_coverage [0x41] (by decide) (by decide) 0x41 (by decide) (by decide)
      (by decide)⟩

/-- C8 counterexample: the claim as stated (for every input) fails. In
`coverageInput` — `16^9` zero bytes followed by the printable byte `0x41`
(`A`) — the byte sits in the final chunk, at offset `16^9`, whose line needs
65 characters: the offset write's `unwrap` panics mid-format, consumption
aborts, and `A` appears in none of the produced lines (which render only
zero bytes). -/
theorem hexdump_char_coverage_counterexample :
    (0x41 : Nat) ∈ coverageInput ∧ 0x20 ≤ (0x41 : Nat) ∧ (0x41 : Nat) < 0x7f
    ∧ (hexdumpLinesP coverageInput).2 = true
    ∧ Char.ofNat 0x41 ∉ (hexdumpLinesP coverageInput).1.flatten := by
  have hb0 : ∀ b ∈ (List.replicate (16 ^ 9) 0 : List Nat), b < 256 := by
    intro b hbm
    rcases (List.mem_replicate.mp hbm).2 with rfl
    omega
  have hlen0 : (List.replicate (16 ^ 9) 0 : List Nat).length ≤ 16 ^ 9 := by
    rw [List.length_replicate]
  have hlen1 : (List.replicate (16 ^ 9) 0 : List Nat).length = 16 * 16 ^ 8 := by
    rw [List.length_replicate]
    norm_num
  have hsing : chunksN 16 [0x41] = [[0x41]] := by decide
  have hsplit : chunksN 16 coverageInput
      = chunksN 16 (List.replicate (16 ^ 9) 0) ++ [[0x41]] := by
    rw [show coverageInput = List.replicate (16 ^ 9) 0 ++ [0x41] from rfl,
      chunksN16_append_mul (16 ^ 8) _ _ hlen1, hsing]
  have hAlen : (chunksN 16 (List.replicate (16 ^ 9) 0)).length = 16 ^ 8 := by
    rw [chunksN_eq_chunksAux, chunksAux16_length _ _ (Nat.le_refl _),
      List.length_replicate]
    norm_num
  have hchunkseq : (hexdump_iter coverageInput).chunks
      = enumerateFrom 0 (chunksN 16 (List.replicate (16 ^ 9) 0))
          ++ [(16 ^ 8, [0x41])] := by
    rw [hexdump_iter_chunks]
    simp only [CHUNK_LENGTH]
    rw [hsplit, enumerateFrom_append, enumerateFrom_singleton, hAlen, Nat.zero_add]
  have hfuel : (hexdump_iter coverageInput).chunks.length
      < (hexdump_iter coverageInput).lenReport := by
    rw [hexdump_iter_lenReport]
    omega
  have hprefit : ∀ q ∈ enumerateFrom 0 (chunksN 16 (List.replicate (16 ^ 9) 0)),
      (hexdump_chunk q.1 q.2).length ≤ BUFFER_LENGTH := chunks_fit hb0 hlen0
  have hnofit : BUFFER_LENGTH
      < (hexdump_chunk ((16 ^ 8 : Nat), ([0x41] : List Nat)).1
          ((16 ^ 8 : Nat), ([0x41] : List Nat)).2).length := by
    show BUFFER_LENGTH < (hexdump_chunk (16 ^ 8) [0x41]).length
    decide
  have hpanic := consumeFrontP_chunk_panic
    (enumerateFrom 0 (chunksN 16 (List.replicate (16 ^ 9) 0)))
    (hexdump_iter coverageInput).lenReport (hexdump_iter coverageInput)
    (16 ^ 8, [0x41]) [] hchunkseq hfuel hprefit hnofit
  have e1 : (hexdumpLinesP coverageInput).1
      = (enumerateFrom 0 (chunksN 16 (List.replicate (16 ^ 9) 0))).map
          (fun q => hexdump_chunk q.1 q.2) := by
    rw [hexdumpLinesP, hpanic]
  refine ⟨?_, by decide, by decide, by rw [hexdumpLinesP, hpanic], ?_⟩
  · rw [show coverageInput = List.replicate (16 ^ 9) 0 ++ [0x41] from rfl]
    exact List.mem_append_right _ (List.mem_singleton.mpr rfl)
  · intro habs
    rw [e1] at habs
    obtain ⟨line, hlinem, hcin⟩ := List.mem_flatten.mp habs
    obtain ⟨q, hq, rfl⟩ := List.mem_map.mp hlinem
    obtain ⟨i, c⟩ := q
    obtain ⟨hcmem, -, -⟩ := enumerateFrom_mem _ 0 i c hq
    have hzero : ∀ b' ∈ c, b' = 0 := by
      intro b' hb'
      have hbrep : b' ∈ (List.replicate (16 ^ 9) 0 : List Nat) := by
        rw [← chunksAux16_flatten (List.replicate (16 ^ 9) 0 : List Nat).length
          (List.replicate (16 ^ 9) 0) (Nat.le_refl _)]
        exact List.mem_flatten.mpr ⟨c, hcmem, hb'⟩
      exact (List.mem_replicate.mp hbrep).2
    rcases mem_hexdump_chunk_cases hcin with h1 | h2 | ⟨d, hd, h3⟩ | ⟨b', hb', h4⟩
    · exact absurd h1 (by decide)
    · exact absurd h2 (by decide)
    · exact absurd h3.symm ((by decide : ∀ e, e < 16 → hexDigit e ≠ Char.ofNat 0x41) d hd)
    · rw [hzero b' hb'] at h4
      exact absurd h4 (by decide)

/-- C9 (amended): for every chunk of length 1..=16 — the lengths the iterator
actually yields — at a chunk index whose byte offset stays below `16^9`, the
chunk line renderer succeeds (every buffer write fits, no `unwrap` panics) and
produces a line whose total character width equals that of the full 16-byte
chunk line at the same index, so all fields stay column-aligned. -/
theorem hexdump_chunk_width_uniform {i : Nat} {chunk : List Nat}
    (hne : chunk ≠ []) (hlen : chunk.length ≤ 16) (hb : ∀ b ∈ chunk, b < 256)
    (hoff : i * CHUNK_LENGTH < 16 ^ 9) :
    renderChunk? i chunk = some (hexdump_chunk i chunk)
    ∧ (hexdump_chunk i chunk).length = (hexdump_chunk i (List.replicate 16 0)).length := by
  constructor
  · rw [renderChunk?, if_pos]
    rw [hexdump_chunk_length hne hlen hb]
    have := hex8_length_le (by omega : 8 ≤ 9) hoff
    simp only [BUFFER_LENGTH]
    omega
  · rw [hexdump_chunk_length hne hlen hb]
    rw [hexdump_chunk_length (by decide) (by decide)
      (fun b hb' => by rcases (List.mem_replicate.mp hb').2 with rfl; omega)]

/-- Witness for C9 at a concrete index and chunk. -/
theorem hexdump_chunk_width_uniform_witness :
    ([0xab] : List Nat) ≠ [] ∧ ([0xab] : List Nat).length ≤ 16
    ∧ (∀ b ∈ ([0xab] : List Nat), b < 256) ∧ 3 * CHUNK_LENGTH < 16 ^ 9
    ∧ (renderChunk? 3 [0xab] = some (hexdump_chunk 3 [0xab])
        ∧ (hexdump_chunk 3 [0xab]).length
            = (hexdump_chunk 3 (List.replicate 16 0)).length) :=
  ⟨by decide, by decide, by decide, by decide,
    hexdump_chunk_width_uniform (by decide) (by decide) (by decide) (by decide)⟩

/-- C9 counterexample: the claim as stated admits every chunk length 0..=16
and every index. For the empty chunk the intended content is 72 characters,
so the renderer's writes overflow the 64-byte buffer and the `unwrap` panics
before any line exists; likewise at chunk index `16^8` (offset `16^9`, nine
offset digits) even a yielded chunk's 65-character line panics mid-format.
In neither case is a line of the uniform width produced. -/
theorem hexdump_chunk_width_counterexample :
    renderChunk? 0 [] = none
    ∧ renderChunk? (16 ^ 8) (List.replicate 16 0) = none := by
  decide

/-- C10 (amended): for every input whose length is below `16^9` (so every
offset and the total length need at most 9 hex digits), every produced line —
every chunk line actually yielded and the summary — has at most
`BUFFER_LENGTH = 64` characters, so no write into the fixed-capacity line
buffer overflows and the `unwrap` calls cannot panic. -/
theorem hexdump_buffer_capacity {bytes : List Nat}
    (hb : ∀ b ∈ bytes, b < 256) (hlen : bytes.length < 16 ^ 9) :
    ∀ line ∈ hexdumpLines bytes, line.length ≤ BUFFER_LENGTH := by
  have hdig : ∀ m : Nat, m < 16 ^ 9 → (hex8 m).length ≤ 9 := by
    intro m hm
    have := hexDigitsLEAux_length_le m 9 m hm
    rw [hex8, hexMin_length]
    simp only [hexDigitsLE]
    omega
  intro line hl
  rw [hexdumpLines_eq] at hl
  rcases List.mem_append.mp hl with hl | hl
  · simp only [chunkLines, List.mem_map] at hl
    obtain ⟨p, hic, rfl⟩ := hl
    obtain ⟨i, c⟩ := p
    obtain ⟨hcmem, -, hilt⟩ := enumerateFrom_mem _ 0 i c hic
    obtain ⟨hcne, hcle⟩ := chunksAux16_mem bytes.length bytes c hcmem
    have hcb : ∀ b ∈ c, b < 256 := by
      intro b hbc
      apply hb
      rw [← chunksAux16_flatten bytes.length bytes (Nat.le_refl _)]
      exact List.mem_flatten.mpr ⟨c, hcmem, hbc⟩
    have hnum := chunksAux16_length bytes.length bytes (Nat.le_refl _)
    simp only [chunksN, CHUNK_LENGTH] at hilt
    rw [hnum] at hilt
    have hoff : i * CHUNK_LENGTH < 16 ^ 9 := by
      simp only [CHUNK_LENGTH]
      have h9 : (16 : Nat) ^ 9 = 68719476736 := by norm_num
      rw [h9] at hlen ⊢
      omega
    show (hexdump_chunk i c).length ≤ BUFFER_LENGTH
    rw [hexdump_chunk_length hcne hcle hcb, BUFFER_LENGTH]
    have := hdig _ hoff
    omega
  · rcases List.mem_singleton.mp hl with rfl
    rw [hexdump_summary_length, BUFFER_LENGTH]
    have := hdig _ hlen
    omega

/-- Witness for C10 at a concrete input. -/
theorem hexdump_buffer_capacity_witness :
    (∀ b ∈ ([] : List Nat), b < 256) ∧ ([] : List Nat).length < 16 ^ 9
    ∧ (hexdump_summary 0).length ≤ BUFFER_LENGTH :=
  ⟨by decide, by decide,
    (@hexdump_buffer_capacity [] (by decide) (by decide)) _ (by decide)⟩

/-- C10 counterexample: the claim as stated covers every yielded chunk and
summary, but for the input of `16^9` zero bytes the summary line needs 10
hex digits and is 65 characters long, exceeding the 64-byte buffer capacity,
so the corresponding write's `unwrap` in the real code panics. -/
theorem hexdump_buffer_capacity_counterexample :
    hexdump_summary (16 ^ 9) ∈ hexdumpLines (List.replicate (16 ^ 9) 0)
    ∧ BUFFER_LENGTH < (hexdump_summary (16 ^ 9)).length := by
  constructor
  · rw [hexdumpLines_eq]
    apply List.mem_append_right
    rw [List.length_replicate]
    exact List.mem_singleton.mpr rfl
  · decide
